import Mathlib

/-!
Verification of the CASL policy engine (contract-first authorization PoC).

The development shallowly embeds the engine's source:
* `interpolateConditions` / `interpolatePolicy` (shared/src/types/casl-types.ts
  and the policy utilities module): template substitution in rule conditions;
* `extractAppPolicy` / `createDefaultUserPolicy` (policy utilities module):
  schema extraction from the contract route tree and default-policy flattening;
* `createAppAbility` (casl-types.ts): translation of raw rules into the rules
  registered with the ability builder.
The ability evaluator itself lives in the third-party casl library, which is
not part of the sources; its semantics (`canQuery`, rule matching, and the
malformed-rule boundary check) are modelled from the specification and are
marked as such in their doc comments.

JavaScript runtime values appearing in conditions, contexts and instances are
modelled by `JValue`; JavaScript objects are association lists in property
insertion order with distinct keys, and property access on a missing key
yields `JValue.undefined`.
-/

set_option autoImplicit false

namespace Casl

/-- A JavaScript runtime value as used by conditions, contexts and instances:
strings, numbers, booleans, and the absent value `undefined`. -/
inductive JValue where
  | str (s : String)
  | num (n : Int)
  | bool (b : Bool)
  | undefined
deriving DecidableEq

/-- A JavaScript object: association list of properties in insertion order. -/
abbrev JObject := List (String × JValue)

/-- A conditions map (`Record<string, any>` in the source). -/
abbrev Conditions := JObject

/-- A runtime context (`\x7b userId: number \x7d` / `Record<string, any>`). -/
abbrev Ctx := JObject

/-- JavaScript property access `obj[key]`: the first (only) binding of the
key, or `undefined` when the key is absent. -/
def jsGet (obj : JObject) (key : String) : JValue :=
  match obj.find? (fun p => p.1 == key) with
  | some p => p.2
  | none => .undefined

/-- JavaScript `s.startsWith(pre)` on code units (characters here). -/
def jsStartsWith (s pre : String) : Bool :=
  s.data.take pre.data.length == pre.data

/-- JavaScript `s.endsWith(suf)` on code units (characters here). -/
def jsEndsWith (s suf : String) : Bool :=
  s.data.drop (s.data.length - suf.data.length) == suf.data

/-- JavaScript `s.slice(2, -2)`: the characters from index 2 up to, but not
including, index `length - 2`, clamped. -/
def jsSliceInner (s : String) : String :=
  String.mk ((s.data.take (s.data.length - 2)).drop 2)

/-- Whether a value is a template string, i.e. a string that starts with a
double opening brace and ends with a double closing brace (the test applied
by `interpolateConditions` in the source). -/
def isTemplateStr : JValue → Bool
  | .str s => jsStartsWith s "\x7b\x7b" && jsEndsWith s "\x7d\x7d"
  | _ => false

/-- The per-value step of `interpolateConditions` (casl-types.ts lines 61-66):
a string value that starts with a double opening brace and ends with a double
closing brace is replaced by `context[value.slice(2, -2)]`; every other value
is left unchanged. -/
def interpolateValue (context : Ctx) (v : JValue) : JValue :=
  match v with
  | .str s =>
    if jsStartsWith s "\x7b\x7b" && jsEndsWith s "\x7d\x7d" then
      jsGet context (jsSliceInner s)
    else .str s
  | v => v

/-- `interpolateConditions(conditions, context)` (casl-types.ts lines 57-68;
the identical copy in the policy utilities module): absent conditions pass
through; otherwise the object is copied and each top-level value is run
through the template substitution step. -/
def interpolateConditions (conditions : Option Conditions) (context : Ctx) :
    Option Conditions :=
  match conditions with
  | none => none
  | some cs => some (cs.map (fun kv => (kv.1, interpolateValue context kv.2)))

/-- `PolicyRule` of the policy utilities module: action, subject, optional
conditions. -/
structure PolicyRule where
  action : String
  subject : String
  conditions : Option Conditions
deriving DecidableEq

/-- `interpolatePolicy(policy, context)`: maps over the rule list, spreading
each rule into a fresh object with its `conditions` replaced by their
interpolation. -/
def interpolatePolicy (policy : List PolicyRule) (context : Ctx) :
    List PolicyRule :=
  policy.map (fun rule =>
    { rule with conditions := interpolateConditions rule.conditions context })

/-- The policy annotation stored under the `__policy` marker of a route node:
a list of subjects, a list of actions, optional shared conditions. -/
structure PolicyAnn where
  subjects : List String
  actions : List String
  conditions : Option Conditions
deriving DecidableEq

/-- A node of the contract route tree as `extractAppPolicy`'s traversal sees
it: a non-object value (ignored), an object carrying the `__policy` marker
(processed, not recursed into), or a plain object whose property values are
traversed in insertion order (keys are never inspected). -/
inductive CNode where
  | prim
  | policy (pol : PolicyAnn)
  | group (children : List CNode)

/-- Per-subject entry of the app policy schema. -/
structure SubjectPolicy where
  actions : List String
  permissions : List PolicyRule
deriving DecidableEq

/-- `AppPolicy`: mapping from subject to its entry, in first-seen order
(JavaScript object property insertion order). -/
abbrev AppPolicy := List (String × SubjectPolicy)

/-- `if (!appPolicy[subject].actions.includes(action)) push(action)`:
append the action only when not already present. -/
def addAction (actions : List String) (action : String) : List String :=
  if actions.contains action then actions else actions ++ [action]

/-- The update applied to one subject's schema entry by one policy node:
every action of the annotation is appended to `actions` unless present, then
one permission per action is pushed. -/
def processSubject (pol : PolicyAnn) (subject : String) (sp : SubjectPolicy) :
    SubjectPolicy :=
  { actions := pol.actions.foldl addAction sp.actions
    permissions := sp.permissions ++
      pol.actions.map (fun action =>
        { action := action, subject := subject, conditions := pol.conditions }) }

/-- `if (!appPolicy[subject]) appPolicy[subject] = ...; mutate`: apply `f` to
the subject's entry, creating an empty entry at the end of the object first
when the subject is new (JavaScript property-update semantics keep an existing
key's position and append a new key). -/
def apModify (ap : AppPolicy) (subject : String) (f : SubjectPolicy → SubjectPolicy) :
    AppPolicy :=
  match ap with
  | [] => [(subject, f { actions := [], permissions := [] })]
  | (k, v) :: rest =>
    if k == subject then (k, f v) :: rest
    else (k, v) :: apModify rest subject f

/-- Processing of one `__policy` annotation: iterate its subjects in order,
updating each subject's schema entry. -/
def processPolicy (ap : AppPolicy) (pol : PolicyAnn) : AppPolicy :=
  pol.subjects.foldl (fun ap subject => apModify ap subject (processSubject pol subject)) ap

/-- The `traverse` closure of `extractAppPolicy`, as a fold over the list of
property values of an object: non-object values are skipped, an object with
the `__policy` marker is processed without recursing into it, any other
object is traversed recursively. -/
def traverseList (ap : AppPolicy) : List CNode → AppPolicy
  | [] => ap
  | .prim :: rest => traverseList ap rest
  | .policy pol :: rest => traverseList (processPolicy ap pol) rest
  | .group children :: rest => traverseList (traverseList ap children) rest

/-- `extractAppPolicy(contract)`: traverse the contract route tree (given by
the list of its top-level property values) starting from the empty schema. -/
def extractAppPolicy (contract : List CNode) : AppPolicy :=
  traverseList [] contract

/-- `createDefaultUserPolicy(appPolicy)`: for every subject entry in schema
order, push a fresh rule per permission carrying its action, subject and
conditions. -/
def createDefaultUserPolicy (appPolicy : AppPolicy) : List PolicyRule :=
  appPolicy.foldl
    (fun rules p =>
      p.2.permissions.foldl
        (fun rules permission =>
          rules ++ [{ action := permission.action, subject := permission.subject,
                      conditions := permission.conditions }])
        rules)
    []

/-- `AppRawRule` (casl-types.ts): action, subject, optional conditions,
optional field restriction, inversion flag (absent reads as false in the
source's truthiness test), optional reason. -/
structure AppRawRule where
  action : String
  subject : String
  conditions : Option Conditions := none
  fields : Option (List String) := none
  inverted : Bool := false
  reason : Option String := none
deriving DecidableEq

/-- A rule as registered with the ability builder by `createAppAbility`: the
arguments of one `can` or `cannot` call. -/
structure ERule where
  action : String
  subject : String
  conditions : Option Conditions
  fields : Option (List String)
  inverted : Bool
deriving DecidableEq

/-- `createAppAbility(userRules, context)` (casl-types.ts lines 71-88), up to
the builder: for each rule, its conditions are interpolated when present; an
inverted rule is registered via `cannot(action, subject, conditions)` — its
`fields` are not passed — and a non-inverted rule via
`can(action, subject, fields, conditions)`. The resulting list, in order, is
the rule set of the built ability. -/
def createAppAbility (userRules : List AppRawRule) (context : Ctx) : List ERule :=
  userRules.map (fun rule =>
    let conditions := match rule.conditions with
      | some c => interpolateConditions (some c) context
      | none => none
    if rule.inverted then
      { action := rule.action, subject := rule.subject, conditions := conditions,
        fields := none, inverted := true }
    else
      { action := rule.action, subject := rule.subject, conditions := conditions,
        fields := rule.fields, inverted := false })

/-- An instance (concrete resource object) an ability query is checked
against. -/
abbrev JInstance := JObject

/-- Modelled from the spec: condition matching of the ability evaluator (the
casl library, a third-party dependency not under the sources). Every key of
the conditions map must equal, by strict equality, the corresponding field
value of the instance; an absent conditions map is automatically satisfied. -/
def condsSatisfied (conditions : Option Conditions) (inst : JInstance) : Bool :=
  match conditions with
  | none => true
  | some cs => cs.all (fun kv => decide (jsGet inst kv.1 = kv.2))

/-- Modelled from the spec: whether one registered rule matches a query (the
casl library's rule matching, not under the sources). The rule's action and
subject must equal the queried ones (the repository's closed enumerations
carry no wildcard markers); when a field is queried, a rule declaring a
`fields` list must include it; when an instance is supplied, the rule's
conditions must be satisfied on it, and without an instance conditions are
not checked (coarse class-level query). -/
def ruleMatches (rule : ERule) (action subject : String) (inst : Option JInstance)
    (fld : Option String) : Bool :=
  action == rule.action && subject == rule.subject &&
    (match fld with
     | none => true
     | some f =>
       match rule.fields with
       | none => true
       | some fs => fs.contains f) &&
    (match inst with
     | none => true
     | some i => condsSatisfied rule.conditions i)

/-- Modelled from the spec: `ability.can(action, subject, instance?, field?)`
of the built ability (the casl library, not under the sources). All rules are
scanned in order; each matching rule's verdict (grant when not inverted, deny
when inverted) replaces the running decision; the final answer is the running
decision, defaulting to deny when no rule matched. -/
def canQuery (rules : List ERule) (action subject : String)
    (inst : Option JInstance) (fld : Option String) : Bool :=
  (rules.foldl
    (fun decision rule =>
      if ruleMatches rule action subject inst fld then some (!rule.inverted)
      else decision)
    none).getD false

/-- Raw rule data as it crosses the boundary into the engine (deserialized
JSON): `action` and `subject` may be absent. -/
structure RawRuleData where
  action : Option String
  subject : Option String
  conditions : Option Conditions := none
  fields : Option (List String) := none
  inverted : Bool := false
  reason : Option String := none
deriving DecidableEq

/-- Modelled from the spec: the error raised when a rule lacks `action` or
`subject`, carrying the name of the offending field. -/
structure MalformedRuleError where
  offendingField : String
deriving DecidableEq

/-- Modelled from the spec: validation of one raw rule at the boundary — a
rule lacking `action` (or, failing that, `subject`) is rejected with a
`MalformedRuleError` identifying the offending field. -/
def validateRule (rule : RawRuleData) : Except MalformedRuleError AppRawRule :=
  match rule.action with
  | none => .error { offendingField := "action" }
  | some action =>
    match rule.subject with
    | none => .error { offendingField := "subject" }
    | some subject =>
      .ok { action := action, subject := subject, conditions := rule.conditions,
            fields := rule.fields, inverted := rule.inverted, reason := rule.reason }

/-- Modelled from the spec: validation of a whole rule list; the first
malformed rule's error rejects the entire list. -/
def validateRules : List RawRuleData → Except MalformedRuleError (List AppRawRule)
  | [] => .ok []
  | rule :: rest =>
    match validateRule rule with
    | .error e => .error e
    | .ok r =>
      match validateRules rest with
      | .error e => .error e
      | .ok rs => .ok (r :: rs)

/-- Modelled from the spec: building an ability from external rule data —
the rule list is validated at the boundary (`MalformedRuleError` rejects it
wholesale), and a valid list is handed to `createAppAbility`. The casl build
step itself is a third-party dependency not under the sources. -/
def buildAbilityChecked (userRules : List RawRuleData) (context : Ctx) :
    Except MalformedRuleError (List ERule) :=
  match validateRules userRules with
  | .error e => .error e
  | .ok rules => .ok (createAppAbility rules context)

/-- Spec-side description of a template string: a double opening brace, the
name (taken verbatim), a double closing brace. Used to compare the source's
template handling with the specification's wording. -/
def specTemplateOfName (name : String) : String :=
  "\x7b\x7b" ++ name ++ "\x7d\x7d"

/-- The grant rule of the forbid-overrides-grant scenario:
`action "delete", subject "Post"`, unconditional. -/
def grantDeletePost : AppRawRule :=
  { action := "delete", subject := "Post" }

/-- The forbid rule of the forbid-overrides-grant scenario:
`action "delete", subject "Post", inverted, conditions authorId = 9`. -/
def forbidDeletePostAuthor9 : AppRawRule :=
  { action := "delete", subject := "Post",
    conditions := some [("authorId", .num 9)], inverted := true }

/-- The rule of the unresolved-template scenario: `delete Post` conditioned
on `authorId` being the template for the context key `missingKey`. -/
def ruleDeleteOwnPost : AppRawRule :=
  { action := "delete", subject := "Post",
    conditions := some [("authorId", .str (specTemplateOfName "missingKey"))] }

/-- The fixed route tree of the extraction-determinism scenario: node A
grants `read` on `Post`; node B grants `delete` on `Post` conditioned on
`authorId` being the template for `userId`. -/
def routeTreeTwoNodes : List CNode :=
  [ .policy { subjects := ["Post"], actions := ["read"], conditions := none },
    .policy { subjects := ["Post"], actions := ["delete"],
              conditions := some [("authorId", .str (specTemplateOfName "userId"))] } ]

/-- A route tree in which two distinct routes declare the same
action/subject/conditions combination. -/
def routeTreeDupPerm : List CNode :=
  [ .policy { subjects := ["Post"], actions := ["read"], conditions := none },
    .policy { subjects := ["Post"], actions := ["read"], conditions := none } ]

/-- An unconditional, unrestricted grant of `update` on `Post`. -/
def grantUpdatePost : AppRawRule :=
  { action := "update", subject := "Post" }

/-- An inverted rule declaring a restricted `fields` list: forbid `update` on
`Post`, fields `title` only. -/
def forbidUpdatePostTitle : AppRawRule :=
  { action := "update", subject := "Post",
    fields := some ["title"], inverted := true }

/-! ## Helper lemmas on templates and interpolation -/

theorem data_specTemplateOfName (name : String) :
    (specTemplateOfName name).data = "\x7b\x7b".data ++ name.data ++ "\x7d\x7d".data := by
  simp [specTemplateOfName, String.data_append]

theorem jsStartsWith_template (name : String) :
    jsStartsWith (specTemplateOfName name) "\x7b\x7b" = true := by
  simp [jsStartsWith, data_specTemplateOfName, List.append_assoc, List.take_append]

theorem jsEndsWith_template (name : String) :
    jsEndsWith (specTemplateOfName name) "\x7d\x7d" = true := by
  have h : (specTemplateOfName name).data.length = name.data.length + 4 := by
    simp [data_specTemplateOfName]
  simp [jsEndsWith, data_specTemplateOfName, h]

theorem jsSliceInner_template (name : String) :
    jsSliceInner (specTemplateOfName name) = name := by
  have h : (specTemplateOfName name).data.length = name.data.length + 4 := by
    simp [data_specTemplateOfName]
  simp [jsSliceInner, data_specTemplateOfName, h]

theorem interpolateValue_template (context : Ctx) (name : String) :
    interpolateValue context (.str (specTemplateOfName name)) = jsGet context name := by
  simp [interpolateValue, jsStartsWith_template, jsEndsWith_template, jsSliceInner_template]

theorem interpolateValue_not_template (context : Ctx) (v : JValue)
    (h : isTemplateStr v = false) : interpolateValue context v = v := by
  cases v <;> simp_all [interpolateValue, isTemplateStr]

theorem isTemplateStr_jsGet (context : Ctx) (key : String)
    (h : ∀ p ∈ context, isTemplateStr p.2 = false) :
    isTemplateStr (jsGet context key) = false := by
  induction context with
  | nil => simp [jsGet, isTemplateStr]
  | cons p rest ih =>
    by_cases hk : p.1 == key
    · simpa [jsGet, List.find?, hk] using h p (by simp)
    · simp only [jsGet, List.find?, hk] at *
      exact ih (fun q hq => h q (by simp [hq]))

theorem jsGet_eq_undef_of_not_key (context : Ctx) (key : String)
    (h : ∀ p ∈ context, p.1 ≠ key) : jsGet context key = .undefined := by
  induction context with
  | nil => rfl
  | cons p rest ih =>
    have hp : (p.1 == key) = false := by
      simpa using h p (by simp)
    simp only [jsGet, List.find?, hp] at *
    exact ih (fun q hq => h q (by simp [hq]))

/-- Every string passing the source's template test decomposes as a double
opening brace, the exact inner text returned by `jsSliceInner`, and a double
closing brace. -/
theorem template_decomp (s : String) (h : isTemplateStr (.str s) = true) :
    s = specTemplateOfName (jsSliceInner s) := by
  obtain ⟨d⟩ := s
  have e2 : "\x7b\x7b".data.length = 2 := rfl
  have f2 : "\x7d\x7d".data.length = 2 := rfl
  simp only [isTemplateStr, jsStartsWith, jsEndsWith, e2, f2, Bool.and_eq_true,
    beq_iff_eq] at h
  obtain ⟨h1, h2⟩ := h
  have hlen2 : 2 ≤ d.length := by
    have := congrArg List.length h1
    simp [List.length_take] at this
    omega
  have hlen4 : 4 ≤ d.length := by
    by_contra hc
    have h23 : d.length = 2 ∨ d.length = 3 := by omega
    have e1 : d[1]? = (d.take 2)[1]? := (List.getElem?_take_of_lt (by omega)).symm
    rw [h1] at e1
    rcases h23 with h2' | h3'
    · have ee : d[1]? = (d.drop (d.length - 2))[1]? := by
        rw [h2']
        simp
      rw [h2, e1] at ee
      exact absurd ee (by decide)
    · have ee : d[1]? = (d.drop (d.length - 2))[0]? := by
        rw [h3', List.getElem?_drop]
      rw [h2, e1] at ee
      exact absurd ee (by decide)
  have t2 := List.take_append_drop 2 (d.take (d.length - 2))
  rw [List.take_take, Nat.min_eq_left (by omega : 2 ≤ d.length - 2)] at t2
  have hd : d = d.take 2 ++ ((d.take (d.length - 2)).drop 2 ++ d.drop (d.length - 2)) := by
    conv_lhs => rw [← List.take_append_drop (d.length - 2) d, ← t2]
    rw [List.append_assoc]
  rw [h1, h2] at hd
  exact congrArg String.mk hd

/-- Under a context none of whose looked-up values is itself a template
string, the per-value substitution step is idempotent. -/
theorem interpolateValue_idem (context : Ctx) (v : JValue)
    (h : ∀ p ∈ context, isTemplateStr p.2 = false) :
    interpolateValue context (interpolateValue context v) = interpolateValue context v := by
  cases v with
  | str s =>
    by_cases ht : (jsStartsWith s "\x7b\x7b" && jsEndsWith s "\x7d\x7d") = true
    · rw [show interpolateValue context (.str s) = jsGet context (jsSliceInner s) by
        simp [interpolateValue, ht]]
      exact interpolateValue_not_template _ _ (isTemplateStr_jsGet _ _ h)
    · simp [interpolateValue, ht]
  | num n => rfl
  | bool b => rfl
  | undefined => rfl

/-- Claim C3 (counterexample): the source does not trim the inner text of a
template. For conditions binding `authorId` to a template whose inner text is
` userId ` (with surrounding spaces) and context binding `userId` to 7, the
claim predicts the value 7, but the code looks up the untrimmed key and
substitutes `undefined`. -/
theorem claim_C3_counterexample :
    interpolateConditions (some [("authorId", JValue.str "\x7b\x7b userId \x7d\x7d")])
        [("userId", JValue.num 7)] = some [("authorId", JValue.undefined)] ∧
    JValue.undefined ≠ JValue.num 7 := by
  decide

/-- Claim C3 (amended): interpolation is total on conditions maps, preserves
keys and positions, replaces each top-level value that is a string of the
form double-brace name double-brace — the name being the EXACT inner text,
not trimmed — by the context's value for that name, and leaves every other
value unchanged; every string passing the source's template test is of that
form; in particular conditions binding `authorId` to the template for
`userId` with context `userId = 7` yield `authorId = 7`. -/
theorem claim_C3_amended :
    (∀ (cs : Conditions) (context : Ctx) (cs' : Conditions),
        interpolateConditions (some cs) context = some cs' →
        cs'.length = cs.length ∧
        ∀ (i : Nat) (k : String) (v : JValue),
          cs[i]? = some (k, v) → cs'[i]? = some (k, interpolateValue context v)) ∧
    (∀ (context : Ctx) (name : String),
        interpolateValue context (.str (specTemplateOfName name)) = jsGet context name) ∧
    (∀ (context : Ctx) (v : JValue), isTemplateStr v = false →
        interpolateValue context v = v) ∧
    (∀ s : String, isTemplateStr (.str s) = true →
        s = specTemplateOfName (jsSliceInner s)) ∧
    interpolateConditions (some [("authorId", .str (specTemplateOfName "userId"))])
        [("userId", .num 7)] = some [("authorId", .num 7)] := by
  refine ⟨?_, interpolateValue_template, interpolateValue_not_template,
    template_decomp, ?_⟩
  · intro cs context cs' hcs'
    simp only [interpolateConditions, Option.some.injEq] at hcs'
    subst hcs'
    refine ⟨by simp, ?_⟩
    intro i k v hv
    simp [hv]
  · rw [show interpolateConditions
        (some [("authorId", .str (specTemplateOfName "userId"))]) [("userId", .num 7)]
      = some [("authorId", interpolateValue [("userId", .num 7)]
          (.str (specTemplateOfName "userId")))] from rfl]
    rw [interpolateValue_template]
    decide

/-- Claim C3 (amended, witness): the decomposition clause applied to the
concrete template string for the name `userId`. -/
theorem claim_C3_amended_witness :
    isTemplateStr (.str "\x7b\x7buserId\x7d\x7d") = true ∧
    "\x7b\x7buserId\x7d\x7d" = specTemplateOfName (jsSliceInner "\x7b\x7buserId\x7d\x7d") :=
  ⟨by decide, claim_C3_amended.2.2.2.1 "\x7b\x7buserId\x7d\x7d" (by decide)⟩

/-- Claim C8: interpolation is idempotent when the values substituted from
the context are not themselves template strings:
interpolating twice with the same context equals interpolating once. -/
theorem claim_C8 (conditions : Option Conditions) (context : Ctx)
    (h : ∀ p ∈ context, isTemplateStr p.2 = false) :
    interpolateConditions (interpolateConditions conditions context) context
      = interpolateConditions conditions context := by
  cases conditions with
  | none => rfl
  | some cs =>
    simp only [interpolateConditions, Option.some.injEq, List.map_map]
    refine List.map_congr_left ?_
    intro kv _
    simp [Function.comp, interpolateValue_idem context kv.2 h]

/-- Claim C8 (witness): idempotence at a concrete conditions map and
context. -/
theorem claim_C8_witness :
    (∀ p ∈ ([("userId", JValue.num 7)] : Ctx), isTemplateStr p.2 = false) ∧
    interpolateConditions
        (interpolateConditions
          (some [("authorId", .str (specTemplateOfName "userId")), ("n", .num 3)])
          [("userId", JValue.num 7)])
        [("userId", JValue.num 7)]
      = interpolateConditions
          (some [("authorId", .str (specTemplateOfName "userId")), ("n", .num 3)])
          [("userId", JValue.num 7)] :=
  ⟨by decide,
    claim_C8 (some [("authorId", .str (specTemplateOfName "userId")), ("n", .num 3)])
      [("userId", JValue.num 7)] (by decide)⟩

/-- Claim C9: `interpolatePolicy` returns a list of the same length in the
same order; each output rule carries the input rule's action and subject
unchanged, and its conditions are the interpolation of the input rule's
conditions. -/
theorem claim_C9 (policy : List PolicyRule) (context : Ctx) :
    (interpolatePolicy policy context).length = policy.length ∧
    (∀ i : Nat, ((interpolatePolicy policy context)[i]?).map PolicyRule.action
        = (policy[i]?).map PolicyRule.action) ∧
    (∀ i : Nat, ((interpolatePolicy policy context)[i]?).map PolicyRule.subject
        = (policy[i]?).map PolicyRule.subject) ∧
    (∀ i : Nat, ((interpolatePolicy policy context)[i]?).map PolicyRule.conditions
        = (policy[i]?).map (fun rule => interpolateConditions rule.conditions context)) := by
  refine ⟨by simp [interpolatePolicy], ?_, ?_, ?_⟩ <;>
  · intro i
    simp only [interpolatePolicy, List.getElem?_map]
    cases policy[i]? <;> rfl

/-- Pushing the rebuilt copy of every permission onto an accumulator equals
appending the permissions themselves: the rebuilt rule is the rule. -/
theorem foldl_push_permissions (perms : List PolicyRule) (rules : List PolicyRule) :
    perms.foldl
      (fun rules permission =>
        rules ++ [{ action := permission.action, subject := permission.subject,
                    conditions := permission.conditions }])
      rules = rules ++ perms := by
  induction perms generalizing rules with
  | nil => simp
  | cons p rest ih => simp [ih]

/-- The outer fold of `createDefaultUserPolicy` flattens the per-subject
permission lists in schema order. -/
theorem foldl_flatten_permissions (ap : AppPolicy) (acc : List PolicyRule) :
    ap.foldl
      (fun rules p =>
        p.2.permissions.foldl
          (fun rules permission =>
            rules ++ [{ action := permission.action, subject := permission.subject,
                        conditions := permission.conditions }])
          rules)
      acc = acc ++ (ap.map (fun p => p.2.permissions)).flatten := by
  induction ap generalizing acc with
  | nil => simp
  | cons p rest ih =>
    rw [List.foldl_cons, foldl_push_permissions, ih, List.map_cons, List.flatten_cons,
      List.append_assoc]

/-- Claim C7: `createDefaultUserPolicy` is exactly the concatenation of every
subject's permission lists in subject-iteration order (so each returned rule
carries the schema entry's action, subject and conditions), and its length is
the sum of the per-subject permission counts. -/
theorem claim_C7 (appPolicy : AppPolicy) :
    createDefaultUserPolicy appPolicy
        = (appPolicy.map (fun p => p.2.permissions)).flatten ∧
    (createDefaultUserPolicy appPolicy).length
        = (appPolicy.map (fun p => p.2.permissions.length)).sum := by
  have he : createDefaultUserPolicy appPolicy
      = (appPolicy.map (fun p => p.2.permissions)).flatten := by
    simpa using foldl_flatten_permissions appPolicy []
  refine ⟨he, ?_⟩
  rw [he, List.length_flatten, List.map_map]
  rfl

/-! ## Extractor claims -/

/-- Claim C5: on the fixed route tree with the two policy-bearing nodes A and
B, extraction produces exactly one `Post` entry whose `actions` are
`read, delete` and whose `permissions` are the two rules, in depth-first
traversal order. -/
theorem claim_C5 :
    extractAppPolicy routeTreeTwoNodes =
      [("Post",
        { actions := ["read", "delete"],
          permissions :=
            [ { action := "read", subject := "Post", conditions := none },
              { action := "delete", subject := "Post",
                conditions := some [("authorId", .str (specTemplateOfName "userId"))] } ] })] := by
  simp [extractAppPolicy, routeTreeTwoNodes, traverseList, processPolicy, apModify,
    processSubject, addAction]

/-- `addAction` preserves distinctness of the actions list. -/
theorem addAction_nodup (actions : List String) (action : String)
    (h : actions.Nodup) : (addAction actions action).Nodup := by
  unfold addAction
  split
  · exact h
  · next hc =>
    have hmem : action ∉ actions := by simpa using hc
    simp [List.nodup_append, h, hmem]

/-- Folding `addAction` over any action list preserves distinctness. -/
theorem foldl_addAction_nodup (acts : List String) (start : List String)
    (h : start.Nodup) : (acts.foldl addAction start).Nodup := by
  induction acts generalizing start with
  | nil => exact h
  | cons a rest ih => exact ih _ (addAction_nodup _ _ h)

/-- `apModify` preserves the every-entry-has-distinct-actions invariant when
the update function does. -/
theorem apModify_actions_nodup (ap : AppPolicy) (subject : String)
    (f : SubjectPolicy → SubjectPolicy)
    (hf : ∀ sp, sp.actions.Nodup → (f sp).actions.Nodup)
    (h : ∀ s sp, (s, sp) ∈ ap → sp.actions.Nodup) :
    ∀ s sp, (s, sp) ∈ apModify ap subject f → sp.actions.Nodup := by
  induction ap with
  | nil =>
    intro s sp hm
    simp only [apModify, List.mem_singleton, Prod.mk.injEq] at hm
    exact hm.2 ▸ hf _ (by simp)
  | cons p rest ih =>
    obtain ⟨k, v⟩ := p
    intro s sp hm
    rw [apModify] at hm
    by_cases hk : (k == subject) = true
    · rw [if_pos hk] at hm
      rcases List.mem_cons.mp hm with he | ht
      · obtain ⟨rfl, rfl⟩ := Prod.mk.inj he
        exact hf v (h _ v (List.mem_cons_self _ _))
      · exact h s sp (List.mem_cons_of_mem _ ht)
    · rw [if_neg hk] at hm
      rcases List.mem_cons.mp hm with he | ht
      · exact h s sp (he ▸ List.mem_cons_self _ _)
      · exact ih (fun s' sp' hm' => h s' sp' (List.mem_cons_of_mem _ hm')) s sp ht

/-- Folding a policy node's subject updates preserves the invariant. -/
theorem foldl_apModify_actions_nodup (subjects : List String) (pol : PolicyAnn)
    (ap : AppPolicy) (h : ∀ s sp, (s, sp) ∈ ap → sp.actions.Nodup) :
    ∀ s sp,
      (s, sp) ∈ subjects.foldl
        (fun ap subject => apModify ap subject (processSubject pol subject)) ap →
      sp.actions.Nodup := by
  induction subjects generalizing ap with
  | nil => exact h
  | cons subj rest ih =>
    intro s sp hm
    refine ih _ ?_ s sp hm
    exact apModify_actions_nodup ap subj _
      (fun sp' hsp' => foldl_addAction_nodup pol.actions sp'.actions hsp') h

/-- `processPolicy` preserves the invariant. -/
theorem processPolicy_actions_nodup (ap : AppPolicy) (pol : PolicyAnn)
    (h : ∀ s sp, (s, sp) ∈ ap → sp.actions.Nodup) :
    ∀ s sp, (s, sp) ∈ processPolicy ap pol → sp.actions.Nodup :=
  foldl_apModify_actions_nodup pol.subjects pol ap h

/-- The traversal preserves the invariant over any route forest. -/
theorem traverseList_actions_nodup :
    ∀ (ap : AppPolicy) (l : List CNode),
      (∀ s sp, (s, sp) ∈ ap → sp.actions.Nodup) →
      ∀ s sp, (s, sp) ∈ traverseList ap l → sp.actions.Nodup := by
  intro ap l
  induction ap, l using traverseList.induct with
  | case1 ap => intro h; simpa [traverseList] using h
  | case2 ap rest ih =>
    intro h
    simpa only [traverseList] using ih h
  | case3 ap pol rest ih =>
    intro h
    simpa only [traverseList] using ih (processPolicy_actions_nodup ap pol h)
  | case4 ap children rest ih1 ih2 =>
    intro h
    simpa only [traverseList] using ih2 (ih1 h)

/-- Claim C6: in every extracted schema each subject's `actions` list is
duplicate-free, while `permissions` are not deduplicated: the route tree
declaring `read` on `Post` twice yields one `read` action but two identical
permission entries. -/
theorem claim_C6 :
    (∀ (contract : List CNode) (s : String) (sp : SubjectPolicy),
        (s, sp) ∈ extractAppPolicy contract → sp.actions.Nodup) ∧
    extractAppPolicy routeTreeDupPerm =
      [("Post",
        { actions := ["read"],
          permissions :=
            [ { action := "read", subject := "Post", conditions := none },
              { action := "read", subject := "Post", conditions := none } ] })] := by
  constructor
  · intro contract s sp hm
    exact traverseList_actions_nodup [] contract (by simp) s sp hm
  · simp [extractAppPolicy, routeTreeDupPerm, traverseList, processPolicy, apModify,
      processSubject, addAction]

/-- Claim C6 (witness): the duplicate-permissions schema entry is in the
extracted schema and its actions list is duplicate-free. -/
theorem claim_C6_witness :
    ("Post",
      ({ actions := ["read"],
         permissions :=
           [ { action := "read", subject := "Post", conditions := none },
             { action := "read", subject := "Post", conditions := none } ] } :
        SubjectPolicy)) ∈ extractAppPolicy routeTreeDupPerm ∧
    (["read"] : List String).Nodup := by
  have hm : ("Post",
      ({ actions := ["read"],
         permissions :=
           [ { action := "read", subject := "Post", conditions := none },
             { action := "read", subject := "Post", conditions := none } ] } :
        SubjectPolicy)) ∈ extractAppPolicy routeTreeDupPerm := by
    rw [claim_C6.2]
    exact List.mem_singleton.mpr rfl
  exact ⟨hm, claim_C6.1 routeTreeDupPerm _ _ hm⟩

/-! ## Ability evaluator claims -/

/-- Claim C1 (counterexample): the override does NOT hold regardless of
declaration order. With the same two rules declared in the other order —
forbid first, unconditional grant second — the instance with `authorId = 9`
is allowed: the last matching rule wins, so a grant declared after the forbid
re-grants. -/
theorem claim_C1_counterexample :
    canQuery
      (createAppAbility [forbidDeletePostAuthor9, grantDeletePost] [("userId", .num 1)])
      "delete" "Post" (some [("authorId", JValue.num 9)]) none = true := by
  decide

/-- Claim C1 (amended): for the rule list grant-then-forbid, the ability
denies `delete Post` on every instance whose `authorId` is 9 and allows it on
an instance with `authorId` 7; the verdict is that of the last matching rule
in declaration order, so the inverted rule overrides the earlier grant (but
not a grant declared after it). -/
theorem claim_C1_amended :
    (∀ (context : Ctx) (inst : JInstance), jsGet inst "authorId" = .num 9 →
        canQuery (createAppAbility [grantDeletePost, forbidDeletePostAuthor9] context)
          "delete" "Post" (some inst) none = false) ∧
    (∀ context : Ctx,
        canQuery (createAppAbility [grantDeletePost, forbidDeletePostAuthor9] context)
          "delete" "Post" (some [("authorId", JValue.num 7)]) none = true) := by
  constructor
  · intro context inst h9
    simp [createAppAbility, grantDeletePost, forbidDeletePostAuthor9,
      interpolateConditions, interpolateValue, canQuery, ruleMatches, condsSatisfied, h9]
  · intro context
    simp [createAppAbility, grantDeletePost, forbidDeletePostAuthor9,
      interpolateConditions, interpolateValue, canQuery, ruleMatches, condsSatisfied, jsGet]

/-- Claim C1 (amended, witness): the denial clause applied to the concrete
instance with `authorId = 9`. -/
theorem claim_C1_witness :
    jsGet [("authorId", JValue.num 9)] "authorId" = JValue.num 9 ∧
    canQuery
      (createAppAbility [grantDeletePost, forbidDeletePostAuthor9] [("userId", JValue.num 1)])
      "delete" "Post" (some [("authorId", JValue.num 9)]) none = false :=
  ⟨by decide,
    claim_C1_amended.1 [("userId", JValue.num 1)] [("authorId", JValue.num 9)] (by decide)⟩

/-- A rule list containing a rule without `action` makes validation fail. -/
theorem validateRules_error_of_missing_action (userRules : List RawRuleData)
    (r : RawRuleData) (hr : r ∈ userRules) (ha : r.action = none) :
    ∃ e, validateRules userRules = .error e := by
  induction userRules with
  | nil => cases hr
  | cons q rest ih =>
    cases hq : validateRule q with
    | error e => exact ⟨e, by simp [validateRules, hq]⟩
    | ok tr =>
      have hqr : r ≠ q := by
        intro he
        subst he
        simp [validateRule, ha] at hq
      have hrest : r ∈ rest := by
        rcases List.mem_cons.mp hr with he | h'
        · exact absurd he hqr
        · exact h'
      obtain ⟨e, he⟩ := ih hrest
      exact ⟨e, by simp [validateRules, hq, he]⟩

/-- Claim C2: a rule list containing a rule that lacks `action` makes the
ability build fail with a `MalformedRuleError` (rejecting the whole list),
and for the concrete list containing only a subject-only rule the error
identifies the `action` field. -/
theorem claim_C2 (userRules : List RawRuleData) (context : Ctx)
    (h : ∃ r ∈ userRules, r.action = none) :
    (∃ e : MalformedRuleError, buildAbilityChecked userRules context = .error e) ∧
    buildAbilityChecked [{ action := none, subject := some "Post" }] context
      = .error { offendingField := "action" } := by
  constructor
  · obtain ⟨r, hr, ha⟩ := h
    obtain ⟨e, he⟩ := validateRules_error_of_missing_action userRules r hr ha
    exact ⟨e, by simp [buildAbilityChecked, he]⟩
  · rfl

/-- Claim C2 (witness): the build rejects the concrete one-rule list lacking
`action`. -/
theorem claim_C2_witness :
    (∃ r ∈ [({ action := none, subject := some "Post" } : RawRuleData)], r.action = none) ∧
    (∃ e : MalformedRuleError,
        buildAbilityChecked [{ action := none, subject := some "Post" }] [] = .error e) ∧
    buildAbilityChecked [{ action := none, subject := some "Post" }] []
      = .error { offendingField := "action" } :=
  ⟨⟨{ action := none, subject := some "Post" }, List.mem_singleton.mpr rfl, rfl⟩,
    claim_C2 _ []
      ⟨{ action := none, subject := some "Post" }, List.mem_singleton.mpr rfl, rfl⟩⟩

/-- Claim C4: a template whose name is not a key of the context substitutes
to `undefined` rather than throwing, and the ability built from a rule whose
condition interpolated to `undefined` denies against every instance whose
corresponding field is defined. -/
theorem claim_C4 :
    (∀ (context : Ctx) (s : String), isTemplateStr (.str s) = true →
        (∀ p ∈ context, p.1 ≠ jsSliceInner s) →
        interpolateValue context (.str s) = .undefined) ∧
    (∀ context : Ctx, (∀ p ∈ context, p.1 ≠ "missingKey") →
        ∀ inst : JInstance, jsGet inst "authorId" ≠ JValue.undefined →
        canQuery (createAppAbility [ruleDeleteOwnPost] context)
          "delete" "Post" (some inst) none = false) := by
  constructor
  · intro context s hts hkey
    simp only [isTemplateStr, Bool.and_eq_true] at hts
    simp only [interpolateValue, hts.1, hts.2, Bool.and_self, if_true]
    exact jsGet_eq_undef_of_not_key context _ hkey
  · intro context hkey inst hdef
    have hu : jsGet context "missingKey" = .undefined :=
      jsGet_eq_undef_of_not_key context _ hkey
    simp [createAppAbility, ruleDeleteOwnPost, interpolateConditions,
      interpolateValue_template, hu, canQuery, ruleMatches, condsSatisfied, hdef]

/-- Claim C4 (witness): the denial clause at a concrete context lacking
`missingKey` and a concrete instance with a defined `authorId`. -/
theorem claim_C4_witness :
    (∀ p ∈ ([("userId", JValue.num 7)] : Ctx), p.1 ≠ "missingKey") ∧
    jsGet [("authorId", JValue.num 5)] "authorId" ≠ JValue.undefined ∧
    canQuery (createAppAbility [ruleDeleteOwnPost] [("userId", JValue.num 7)])
      "delete" "Post" (some [("authorId", JValue.num 5)]) none = false :=
  ⟨by decide, by decide,
    claim_C4.2 [("userId", JValue.num 7)] (by decide) [("authorId", JValue.num 5)] (by decide)⟩

/-- Claim C10: `createAppAbility` drops the `fields` list of every inverted
rule — each inverted rule is registered with no field restriction — and
consequently, after an unconditional grant of `update Post`, an inverted rule
declaring `fields` restricted to `title` denies `update Post` for EVERY
queried field, not just `title`. -/
theorem claim_C10 :
    (∀ (userRules : List AppRawRule) (context : Ctx) (e : ERule),
        e ∈ createAppAbility userRules context → e.inverted = true → e.fields = none) ∧
    (∀ (context : Ctx) (f : String),
        canQuery (createAppAbility [grantUpdatePost, forbidUpdatePostTitle] context)
          "update" "Post" none (some f) = false) := by
  constructor
  · intro userRules context e he hinv
    simp only [createAppAbility, List.mem_map] at he
    obtain ⟨r, hr, he⟩ := he
    by_cases hri : r.inverted
    · rw [← he]
      simp [hri]
    · rw [← he] at hinv
      simp [hri] at hinv
  · intro context f
    rfl

/-- Claim C10 (witness): the dropped-fields clause at the concrete inverted
rule declaring `fields : [title]`. -/
theorem claim_C10_witness :
    ({ action := "update", subject := "Post", conditions := none, fields := none,
        inverted := true } : ERule) ∈ createAppAbility [forbidUpdatePostTitle] [] ∧
    ({ action := "update", subject := "Post", conditions := none, fields := none,
        inverted := true } : ERule).fields = none :=
  ⟨by decide, claim_C10.1 [forbidUpdatePostTitle] [] _ (by decide) rfl⟩

end Casl
